import Mathlib

/-!
A shallow embedding of the developer-workflow scripts of this repository
(`scripts/publish.py`, `scripts/clearPackages.py`, `scripts/setup.py`,
`scripts/runTests.py`) and proofs about them.

Strings manipulated character-by-character (version strings and manifest
contents) are modelled as `List Char`; `str.split(".")`, `int(...)`,
`str.replace`, and the `re.search` call of `get_current_version` are
modelled as executable functions on `List Char`.  Directories are modelled
as association lists of named filesystem nodes.
-/

namespace Scripts

/-- Model of Python `str.split(".")` on a list of characters: splitting on
every occurrence of `'.'`, keeping empty pieces (so `"".split(".") = [""]`,
`"a.".split(".") = ["a", ""]`). -/
def splitOnDot : List Char → List (List Char)
  | [] => [[]]
  | c :: cs =>
    if c = '.' then [] :: splitOnDot cs
    else
      match splitOnDot cs with
      | [] => [[c]]
      | p :: ps => (c :: p) :: ps

/-- Numeric value of an ASCII digit character. -/
def digitVal (c : Char) : Nat := c.toNat - 48

/-- Model of the digit part of Python `int(...)`: `digit (["_"] digit)*`.
`acc` is the value of the digits consumed so far; a single underscore is
allowed between two digits. -/
def pyDigitsAux (acc : Nat) : List Char → Option Nat
  | [] => some acc
  | c :: cs =>
    if c.isDigit then pyDigitsAux (acc * 10 + digitVal c) cs
    else if c = '_' then
      match cs with
      | [] => none
      | d :: cs2 => if d.isDigit then pyDigitsAux (acc * 10 + digitVal d) cs2 else none
    else none

/-- Parse a nonempty digit run (with optional single underscores between
digits), as accepted by Python `int(...)` after sign handling. -/
def pyDigitsStart : List Char → Option Nat
  | [] => none
  | c :: cs => if c.isDigit then pyDigitsAux (digitVal c) cs else none

/-- Model of Python `int(s)` on a string: strip surrounding whitespace, read an
optional sign, then a digit run; `none` models the `ValueError` raised on any
other input. -/
def pyIntSigned : List Char → Option Int
  | [] => none
  | c :: rest =>
    if c = '+' then (pyDigitsStart rest).map Int.ofNat
    else if c = '-' then (pyDigitsStart rest).map (fun n => -(Int.ofNat n : Int))
    else (pyDigitsStart (c :: rest)).map Int.ofNat

def pyInt (s : List Char) : Option Int :=
  pyIntSigned (((s.dropWhile Char.isWhitespace).reverse.dropWhile Char.isWhitespace).reverse)

/-- The decimal digit character for `d < 10`. -/
def digitChar (d : Nat) : Char := Char.ofNat (48 + d)

/-- Little-endian decimal digit characters of `n`, with explicit fuel so that
the definition reduces by kernel computation. -/
def showNatCore : Nat → Nat → List Char
  | 0, _ => []
  | _, 0 => []
  | fuel + 1, n + 1 => digitChar ((n + 1) % 10) :: showNatCore fuel ((n + 1) / 10)

/-- Decimal rendering of a natural number, as Python `str` renders a
nonnegative `int`. -/
def showNat (n : Nat) : List Char :=
  if n = 0 then ['0'] else (showNatCore n n).reverse

/-- Decimal rendering of an integer, as Python f-strings render an `int`. -/
def showInt (i : Int) : List Char :=
  if i < 0 then '-' :: showNat i.natAbs else showNat i.natAbs

/-- Embedding of `increment_version` from `scripts/publish.py`.  The version
string is split on dots, the first three parts are converted with `int`, the
selected component is bumped, and the result is re-rendered as
`f"{major}.{minor}.{patch}"`.  `none` models an uncaught `IndexError` (fewer
than three parts), a `ValueError` from `int`, or the explicit
`ValueError("Invalid increment type")`. -/
def increment_version (version : List Char) (increment_type : List Char) : Option (List Char) := do
  let parts := splitOnDot version
  let p0 ← parts[0]?
  let p1 ← parts[1]?
  let p2 ← parts[2]?
  let major ← pyInt p0
  let minor ← pyInt p1
  let patch ← pyInt p2
  let (major, minor, patch) ←
    if increment_type = "major".data then some (major + 1, (0 : Int), (0 : Int))
    else if increment_type = "minor".data then some (major, minor + 1, (0 : Int))
    else if increment_type = "patch".data then some (major, minor, patch + 1)
    else none
  return showInt major ++ '.' :: (showInt minor ++ '.' :: showInt patch)

/-! ### The manifest (`wally.toml`) operations of `scripts/publish.py` -/

/-- The characters matched by `\s` in the `re` module (ASCII range). -/
def pySpace (c : Char) : Bool :=
  c = ' ' ∨ c = '\t' ∨ c = '\n' ∨ c = '\x0d' ∨ c = '\x0b' ∨ c = '\x0c'

/-- Consume an exact literal prefix, returning the remainder. -/
def dropLit : List Char → List Char → Option (List Char)
  | [], s => some s
  | _ :: _, [] => none
  | c :: cs, x :: xs => if c = x then dropLit cs xs else none

/-- Attempt to match the regular expression `version\s*=\s*"([^"]+)"` at the
start of `s`, returning the capture group.  The regex is deterministic here:
each greedy piece (`\s*`, `[^"]+`) is followed by a character it cannot match
(`=`, `"`, `"`), so maximal munch without backtracking is exact. -/
def matchVersionAt (s : List Char) : Option (List Char) :=
  match dropLit "version".data s with
  | none => none
  | some s1 =>
    match s1.dropWhile pySpace with
    | [] => none
    | c :: s2 =>
      if c = '=' then
        match s2.dropWhile pySpace with
        | [] => none
        | q :: s3 =>
          if q = '"' then
            match s3.takeWhile (fun c => c != '"'), s3.dropWhile (fun c => c != '"') with
            | [], _ => none
            | _ :: _, [] => none
            | g :: gs, _ :: _ => some (g :: gs)
          else none
      else none

/-- Scan for the leftmost `re.MULTILINE` match of
`^version\s*=\s*"([^"]+)"`: positions at the start of the string or right
after a newline are tried left to right. -/
def searchVersionGo : Bool → List Char → Option (List Char)
  | _, [] => none
  | atLineStart, c :: cs =>
    if atLineStart then
      match matchVersionAt (c :: cs) with
      | some g => some g
      | none => searchVersionGo (c = '\n') cs
    else searchVersionGo (c = '\n') cs

/-- Embedding of `get_current_version` from `scripts/publish.py`:
`re.search(r'^version\s*=\s*"([^"]+)"', content, re.MULTILINE)`, returning
the capture group of the leftmost match. -/
def get_current_version (content : List Char) : Option (List Char) :=
  searchVersionGo true content

/-- The exact text `version = "v"` built by `scripts/publish.py` when
searching and replacing in `wally.toml`. -/
def verLine (v : List Char) : List Char :=
  "version = ".data ++ '"' :: (v ++ ['"'])

/-- The loop of `str.replace`: replace every non-overlapping occurrence of
`needle`, scanning left to right.  `skip` counts characters that belong to an
occurrence just replaced and must still be dropped, which keeps the recursion
structural. -/
def replaceAllCore (needle repl : List Char) : Nat → List Char → List Char
  | _ + 1, [] => []
  | skip + 1, _ :: cs => replaceAllCore needle repl skip cs
  | 0, [] => []
  | 0, c :: cs =>
    if needle ≠ [] ∧ needle.isPrefixOf (c :: cs) then
      repl ++ replaceAllCore needle repl (needle.length - 1) cs
    else
      c :: replaceAllCore needle repl 0 cs

/-- Model of Python `str.replace`.  (The scripts only call it with a nonempty
needle.) -/
def replaceAll (needle repl s : List Char) : List Char :=
  replaceAllCore needle repl 0 s

/-- Embedding of `update_version` from `scripts/publish.py`:
`content.replace(f'version = "{old}"', f'version = "{new}"')`. -/
def update_version (content old new : List Char) : List Char :=
  replaceAll (verLine old) (verLine new) content

/-! ### Directories and the package-clearing scripts -/

/-- A filesystem node: a file with its data, or a directory listing its
entries by name.  Names within one directory listing are unique on a real
filesystem. -/
inductive FSNode where
  | file (data : String) : FSNode
  | dir (entries : List (String × FSNode)) : FSNode

/-- The allow-list `IGNORE_LIST = ["src", "default.project.json",
"wally.toml"]` shared by `clearPackages.py`, `publish.py` and `setup.py`. -/
def IGNORE_LIST : List String := ["src", "default.project.json", "wally.toml"]

/-- Deleting the entry called `name` from a directory listing
(`shutil.rmtree` / `Path.unlink` both remove the named entry). -/
def removeEntry (name : String) (d : List (String × FSNode)) : List (String × FSNode) :=
  d.filter (fun e => e.1 != name)

/-- Embedding of `clear_package_dir`: iterate over the directory's entries
and delete every one whose name is not in `IGNORE_LIST`. -/
def clear_package_dir (d : List (String × FSNode)) : List (String × FSNode) :=
  d.foldl (fun acc e => if e.1 ∈ IGNORE_LIST then acc else removeEntry e.1 acc) d

/-- Embedding of the package-selection loop of `clearPackages.py` `main` (the
same selection logic appears in `setup.py` `main`): iterate over the entries
of the `lib` directory, skip non-directories, skip directories whose name is
not among the (nonempty) positional arguments, and clear the rest.  The
script iterates in sorted order, which only affects console output, not the
per-entry effect modelled here. -/
def processPackages (args : List String) : List (String × FSNode) → List (String × FSNode)
  | [] => []
  | e :: rest =>
    (match e with
     | (name, FSNode.dir children) =>
       if args = [] ∨ name ∈ args then (name, FSNode.dir (clear_package_dir children))
       else (name, FSNode.dir children)
     | (name, FSNode.file d) => (name, FSNode.file d)) :: processPackages args rest

/-! ### `find_project_root` (shared by all four scripts) -/

/-- The loop of `find_project_root` with explicit fuel (`fuel` bounds the
length of the directory still being examined, so the `0, _ :: _` case is
unreachable in `find_project_root`), walking a path modelled as its list of
components from the root — `parent` is `dropLast` and the filesystem root is
`[]`, its own parent.  `cwd` is the original working directory, returned
unchanged when the walk reaches the root without finding `lib`. -/
def frGo (hasLib : List String → Bool) (cwd : List String) : Nat → List String → List String
  | _, [] => cwd
  | 0, _ :: _ => cwd
  | fuel + 1, p :: ps =>
    if hasLib (p :: ps) then p :: ps else frGo hasLib cwd fuel (p :: ps).dropLast

/-- Embedding of `find_project_root`: starting from the current directory,
walk upward while the directory is not its own parent; change to (and return)
the first directory containing a `lib` subdirectory (`hasLib`), else return
the unchanged current directory. -/
def find_project_root (hasLib : List String → Bool) (cwd : List String) : List String :=
  frGo hasLib cwd cwd.length cwd

/-- The directories examined by `find_project_root` (with fuel, as in
`frGo`), in the order examined: the starting directory and its proper
ancestors, excluding the root. -/
def ancestorsCore : Nat → List String → List (List String)
  | _, [] => []
  | 0, _ :: _ => []
  | fuel + 1, p :: ps => (p :: ps) :: ancestorsCore fuel (p :: ps).dropLast

/-- The directories examined by `find_project_root` starting from `l`. -/
def ancestors (l : List String) : List (List String) :=
  ancestorsCore l.length l

/-! ### The `main` entry points of `publish.py` and `runTests.py` -/

/-- Python `answer.strip().lower()` applied to an interactive answer. -/
def normAnswer (s : List Char) : List Char :=
  (((s.dropWhile Char.isWhitespace).reverse.dropWhile Char.isWhitespace).reverse).map Char.toLower

/-- The environment a run of `scripts/publish.py` `main` observes:  which
paths exist, the content of `wally.toml`, the three interactive answers, and
whether the external commands succeed. -/
structure PubEnv where
  srcDirExists : Bool
  packageDirExists : Bool
  wallyTomlExists : Bool
  tomlContent : List Char
  incAnswer : List Char
  incTypeAnswer : List Char
  publishAnswer : List Char
  wallyPublishOk : Bool
  setupOk : Bool

/-- Embedding of `main` from `scripts/publish.py`.  Returns the exit code,
the list of side-effecting steps performed (in order), and the final
`wally.toml` content.  A malformed current version reaches the interpreter as
an uncaught `IndexError`, which also terminates the process with a nonzero
status — like the caught `ValueError` it is modelled by exit code 1.  Note
that the result of `run_command(["wally", "publish"])` only selects a console
message: the remaining steps run and the return value is 0 either way. -/
def publish_main (env : PubEnv) : Int × List String × List Char :=
  if !env.srcDirExists then (1, [], env.tomlContent)
  else if !env.packageDirExists then (1, [], env.tomlContent)
  else if !env.wallyTomlExists then (1, [], env.tomlContent)
  else
    match get_current_version env.tomlContent with
    | none => (1, [], env.tomlContent)
    | some current =>
      let afterInc : Option (List String × List Char) :=
        if normAnswer env.incAnswer = "y".data then
          match increment_version current (normAnswer env.incTypeAnswer) with
          | none => none
          | some newVersion =>
            some (["update_version"], update_version env.tomlContent current newVersion)
        else some ([], env.tomlContent)
      match afterInc with
      | none => (1, [], env.tomlContent)
      | some (tr, toml) =>
        if normAnswer env.publishAnswer ≠ "y".data then (0, tr, toml)
        else
          (0, tr ++ ["clear_package_dir", "write_default_project", "wally_publish",
                     "delete_default_project", "run_setup"], toml)

/-- The environment a run of `scripts/runTests.py` `main` observes. -/
structure TestsEnv where
  submoduleInitOk : Bool
  submoduleUpdateOk : Bool
  testPlaceExists : Bool
  rojoBuildOk : Bool
  openAnswer : List Char
  studioFound : Bool

/-- Embedding of `main` from `scripts/runTests.py`: the results of the
`git`/`rojo` subprocess calls are discarded and the function always returns
0.  The trace lists the steps performed. -/
def runTests_main (env : TestsEnv) : Int × List String :=
  let t1 := ["git_submodule_init", "git_submodule_update"]
  let t2 := if !env.testPlaceExists then t1 ++ ["rojo_build"] else t1
  let t3 :=
    if normAnswer env.openAnswer = "y".data then
      if env.studioFound then t2 ++ ["open_studio"] else t2
    else t2
  (0, t3)

/-! ### Helper lemmas: decimal rendering and parsing -/

theorem digitChar_facts (d : Nat) (hd : d < 10) :
    (digitChar d).isDigit = true ∧ digitVal (digitChar d) = d ∧ digitChar d ≠ '.' ∧
      (digitChar d).isWhitespace = false ∧ digitChar d ≠ '+' ∧ digitChar d ≠ '-' := by
  interval_cases d <;> exact ⟨by decide, by decide, by decide, by decide, by decide, by decide⟩

theorem showNatCore_eq_digits : ∀ (fuel n : Nat), n ≤ fuel →
    showNatCore fuel n = (Nat.digits 10 n).map digitChar := by
  intro fuel
  induction fuel with
  | zero =>
    intro n hn
    interval_cases n
    simp [showNatCore]
  | succ fuel ih =>
    intro n hn
    match n with
    | 0 => simp [showNatCore]
    | m + 1 =>
      have hdiv : (m + 1) / 10 ≤ fuel :=
        Nat.le_of_lt_succ (Nat.lt_of_lt_of_le (Nat.div_lt_self (Nat.succ_pos m) (by omega)) hn)
      rw [showNatCore, ih _ hdiv, Nat.digits_def' (by omega : 1 < 10) (Nat.succ_pos m)]
      simp

theorem showNat_eq_map (n : Nat) :
    showNat n = (if n = 0 then [0] else (Nat.digits 10 n).reverse).map digitChar := by
  by_cases h : n = 0
  · subst h
    decide
  · rw [showNat, if_neg h, if_neg h, showNatCore_eq_digits n n le_rfl, List.map_reverse]

theorem mem_showNat (n : Nat) (c : Char) (hc : c ∈ showNat n) :
    ∃ d, d < 10 ∧ c = digitChar d := by
  rw [showNat_eq_map] at hc
  rcases List.mem_map.mp hc with ⟨d, hd, rfl⟩
  refine ⟨d, ?_, rfl⟩
  by_cases h : n = 0
  · simp [h] at hd
    omega
  · rw [if_neg h, List.mem_reverse] at hd
    exact Nat.digits_lt_base (by omega) hd

theorem showNat_ne_nil (n : Nat) : showNat n ≠ [] := by
  rw [showNat_eq_map]
  by_cases h : n = 0
  · simp [h]
  · simp [h, Nat.digits_ne_nil_iff_ne_zero.mpr h]

theorem dot_not_mem_showNat (n : Nat) : '.' ∉ showNat n := by
  intro hc
  rcases mem_showNat n _ hc with ⟨d, hd, hdc⟩
  exact (digitChar_facts d hd).2.2.1 hdc.symm

theorem dropWhile_eq_self_of_all_false {p : Char → Bool} :
    ∀ l : List Char, (∀ c ∈ l, p c = false) → l.dropWhile p = l := by
  intro l hl
  cases l with
  | nil => rfl
  | cons c cs => simp [List.dropWhile_cons, hl c (List.mem_cons_self c cs)]

theorem pyDigitsAux_map_digitChar :
    ∀ (l : List Nat) (acc : Nat), (∀ d ∈ l, d < 10) →
      pyDigitsAux acc (l.map digitChar) = some (l.foldl (fun a d => a * 10 + d) acc) := by
  intro l
  induction l with
  | nil => intro acc _; rfl
  | cons d rest ih =>
    intro acc hl
    have hd : d < 10 := hl d (List.mem_cons_self d rest)
    have hfacts := digitChar_facts d hd
    rw [List.map_cons, pyDigitsAux.eq_def]
    simp only [hfacts.1, if_true, hfacts.2.1]
    rw [ih (acc * 10 + d) (fun x hx => hl x (List.mem_cons_of_mem d hx)), List.foldl_cons]

theorem foldl_base10_reverse :
    ∀ (l : List Nat) (acc : Nat),
      l.reverse.foldl (fun a d => a * 10 + d) acc = acc * 10 ^ l.length + Nat.ofDigits 10 l := by
  intro l
  induction l with
  | nil => intro acc; simp [Nat.ofDigits_nil]
  | cons d rest ih =>
    intro acc
    rw [List.reverse_cons, List.foldl_append, ih acc, List.foldl_cons, List.foldl_nil,
      Nat.ofDigits_cons, List.length_cons]
    ring

theorem pyIntSigned_map_digitChar (d : Nat) (rest : List Nat) (hd : d < 10)
    (hrest : ∀ x ∈ rest, x < 10) :
    pyIntSigned ((d :: rest).map digitChar)
      = some (Int.ofNat ((d :: rest).foldl (fun a x => a * 10 + x) 0)) := by
  have hfacts := digitChar_facts d hd
  rw [List.map_cons, pyIntSigned.eq_def]
  simp only []
  rw [if_neg hfacts.2.2.2.2.1, if_neg hfacts.2.2.2.2.2, pyDigitsStart.eq_def]
  simp only [hfacts.1, if_true, hfacts.2.1]
  rw [pyDigitsAux_map_digitChar rest d hrest]
  simp [List.foldl_cons]

theorem pyInt_showNat (n : Nat) : pyInt (showNat n) = some (Int.ofNat n) := by
  have hnotws : ∀ c ∈ showNat n, c.isWhitespace = false := by
    intro c hc
    rcases mem_showNat n c hc with ⟨d, hd, rfl⟩
    exact (digitChar_facts d hd).2.2.2.1
  have hstrip :
      (((showNat n).dropWhile Char.isWhitespace).reverse.dropWhile Char.isWhitespace).reverse
        = showNat n := by
    rw [dropWhile_eq_self_of_all_false _ hnotws,
      dropWhile_eq_self_of_all_false _ (by intro c hc; exact hnotws c (List.mem_reverse.mp hc)),
      List.reverse_reverse]
  rw [pyInt, hstrip]
  by_cases h : n = 0
  · subst h
    decide
  · have hshow : showNat n = ((Nat.digits 10 n).reverse).map digitChar := by
      rw [showNat_eq_map, if_neg h]
    obtain ⟨d, rest, hbc⟩ : ∃ d rest, (Nat.digits 10 n).reverse = d :: rest := by
      rcases hl : (Nat.digits 10 n).reverse with _ | ⟨d, rest⟩
      · rw [List.reverse_eq_nil_iff] at hl
        exact absurd hl (Nat.digits_ne_nil_iff_ne_zero.mpr h)
      · exact ⟨d, rest, rfl⟩
    have hlt : ∀ x ∈ (Nat.digits 10 n).reverse, x < 10 :=
      fun x hx => Nat.digits_lt_base (by omega) (List.mem_reverse.mp hx)
    have hd : d < 10 := hlt d (hbc ▸ List.mem_cons_self d rest)
    have hrest : ∀ x ∈ rest, x < 10 := fun x hx => hlt x (hbc ▸ List.mem_cons_of_mem d hx)
    have hval : (d :: rest).foldl (fun a x => a * 10 + x) 0 = n := by
      rw [← hbc, foldl_base10_reverse, Nat.ofDigits_digits]
      ring
    rw [hshow, hbc, pyIntSigned_map_digitChar d rest hd hrest, hval]

theorem showInt_ofNat (n : Nat) : showInt (Int.ofNat n) = showNat n := by
  have h : ¬(Int.ofNat n < 0) := by
    rw [Int.ofNat_eq_coe]
    omega
  rw [showInt, if_neg h]
  rfl

/-! ### Helper lemmas: `splitOnDot` -/

theorem splitOnDot_ne_nil : ∀ l : List Char, splitOnDot l ≠ [] := by
  intro l
  cases l with
  | nil => simp [splitOnDot]
  | cons c cs =>
    rw [splitOnDot]
    by_cases h : c = '.'
    · simp [h]
    · rw [if_neg h]
      rcases hs : splitOnDot cs with _ | ⟨p, ps⟩ <;> simp

theorem splitOnDot_no_dot : ∀ l : List Char, '.' ∉ l → splitOnDot l = [l] := by
  intro l
  induction l with
  | nil => intro _; rfl
  | cons c cs ih =>
    intro h
    have hc : ¬c = '.' := fun hc => h (hc ▸ List.mem_cons_self c cs)
    rw [splitOnDot, if_neg hc, ih (fun hm => h (List.mem_cons_of_mem c hm))]

theorem splitOnDot_append_dot : ∀ l r : List Char, '.' ∉ l →
    splitOnDot (l ++ '.' :: r) = l :: splitOnDot r := by
  intro l
  induction l with
  | nil =>
    intro r _
    simp [splitOnDot]
  | cons c cs ih =>
    intro r h
    have hc : ¬c = '.' := fun hc => h (hc ▸ List.mem_cons_self c cs)
    rw [List.cons_append, splitOnDot, if_neg hc, ih r (fun hm => h (List.mem_cons_of_mem c hm))]

/-! ### Claim C1 -/

/-- C1: for every version made of exactly three dot-separated numeric
components `a.b.c`, `increment_version` with `"patch"` yields `a.b.(c+1)`,
with `"minor"` yields `a.(b+1).0`, and with `"major"` yields `(a+1).0.0`;
in particular `1.4.9` + minor = `1.5.0` and `2.9.9` + major = `3.0.0`. -/
theorem increment_version_triple (a b c : Nat) :
    increment_version (showNat a ++ '.' :: (showNat b ++ '.' :: showNat c)) "patch".data
      = some (showNat a ++ '.' :: (showNat b ++ '.' :: showNat (c + 1)))
  ∧ increment_version (showNat a ++ '.' :: (showNat b ++ '.' :: showNat c)) "minor".data
      = some (showNat a ++ '.' :: (showNat (b + 1) ++ '.' :: showNat 0))
  ∧ increment_version (showNat a ++ '.' :: (showNat b ++ '.' :: showNat c)) "major".data
      = some (showNat (a + 1) ++ '.' :: (showNat 0 ++ '.' :: showNat 0))
  ∧ increment_version "1.4.9".data "minor".data = some "1.5.0".data
  ∧ increment_version "2.9.9".data "major".data = some "3.0.0".data := by
  have hsplit : splitOnDot (showNat a ++ '.' :: (showNat b ++ '.' :: showNat c))
      = [showNat a, showNat b, showNat c] := by
    rw [splitOnDot_append_dot _ _ (dot_not_mem_showNat a),
      splitOnDot_append_dot _ _ (dot_not_mem_showNat b),
      splitOnDot_no_dot _ (dot_not_mem_showNat c)]
  have hcast : ∀ m : Nat, ((m : Int) + 1) = ((m + 1 : Nat) : Int) := fun m => by omega
  have hshowCast : ∀ m : Nat, showInt ((m : Int)) = showNat m := fun m => showInt_ofNat m
  have hzero : showInt (0 : Int) = showNat 0 := showInt_ofNat 0
  refine ⟨?_, ?_, ?_, by decide, by decide⟩
  · simp [increment_version, hsplit, pyInt_showNat]
    rw [hcast c, hshowCast a, hshowCast b, hshowCast (c + 1)]
  · simp [increment_version, hsplit, pyInt_showNat]
    rw [hcast b, hshowCast a, hshowCast (b + 1), hzero]
  · simp [increment_version, hsplit, pyInt_showNat]
    rw [hcast a, hshowCast (a + 1), hzero]

/-! ### Claim C8 -/

/-- C8: on any input string whose first three dot-separated components parse
as integers, `increment_version` succeeds and returns a string of exactly
three dot-separated components built from those first three, silently
discarding any further components. -/
theorem increment_version_first_three (s p0 p1 p2 : List Char) (rest : List (List Char))
    (hsplit : splitOnDot s = p0 :: p1 :: p2 :: rest)
    (a b c : Int) (h0 : pyInt p0 = some a) (h1 : pyInt p1 = some b) (h2 : pyInt p2 = some c) :
    increment_version s "patch".data
      = some (showInt a ++ '.' :: (showInt b ++ '.' :: showInt (c + 1)))
  ∧ increment_version s "minor".data
      = some (showInt a ++ '.' :: (showInt (b + 1) ++ '.' :: showInt 0))
  ∧ increment_version s "major".data
      = some (showInt (a + 1) ++ '.' :: (showInt 0 ++ '.' :: showInt 0))
  ∧ splitOnDot (showInt a ++ '.' :: (showInt b ++ '.' :: showInt (c + 1)))
      = [showInt a, showInt b, showInt (c + 1)] := by
  have hdot : ∀ i : Int, '.' ∉ showInt i := by
    intro i hm
    rw [showInt] at hm
    by_cases hi : i < 0
    · rw [if_pos hi] at hm
      rcases List.mem_cons.mp hm with h | h
      · exact absurd h (by decide)
      · exact dot_not_mem_showNat _ h
    · rw [if_neg hi] at hm
      exact dot_not_mem_showNat _ hm
  refine ⟨?_, ?_, ?_, ?_⟩
  · simp [increment_version, hsplit, h0, h1, h2, Option.bind]
  · simp [increment_version, hsplit, h0, h1, h2, Option.bind]
  · simp [increment_version, hsplit, h0, h1, h2, Option.bind]
  · rw [splitOnDot_append_dot _ _ (hdot a), splitOnDot_append_dot _ _ (hdot b),
      splitOnDot_no_dot _ (hdot (c + 1))]

/-- Witness for C8 at the concrete four-component input `1.2.3.4`. -/
theorem increment_version_first_three_witness :
    increment_version "1.2.3.4".data "patch".data = some "1.2.4".data := by
  have h := increment_version_first_three "1.2.3.4".data "1".data "2".data "3".data
    ["4".data] (by decide) 1 2 3 (by decide) (by decide) (by decide)
  exact h.1.trans (by decide)

/-! ### Claim C5 -/

/-- C5 counterexample: the input `1.2.3.4` does not consist of exactly three
dot-separated components, yet `increment_version` succeeds on it instead of
raising. -/
theorem increment_version_four_components_succeeds :
    (splitOnDot "1.2.3.4".data).length ≠ 3
      ∧ increment_version "1.2.3.4".data "patch".data = some "1.2.4".data := by
  exact ⟨by decide, by decide⟩

/-- C5 (amended): `increment_version` succeeds only on strings having at
least three dot-separated components whose first three all parse as Python
integers; on every other string it fails.  (Components after the third do not
cause a failure.) -/
theorem increment_version_some_shape (s ty : List Char)
    (h : (increment_version s ty).isSome = true) :
    ∃ p0 p1 p2 rest a b c, splitOnDot s = p0 :: p1 :: p2 :: rest
      ∧ pyInt p0 = some a ∧ pyInt p1 = some b ∧ pyInt p2 = some c := by
  rcases hs : splitOnDot s with _ | ⟨p0, _ | ⟨p1, _ | ⟨p2, rest⟩⟩⟩ <;>
    rw [increment_version] at h
  · rw [hs] at h
    simp at h
  · rw [hs] at h
    simp at h
  · rw [hs] at h
    simp at h
  · rcases h0 : pyInt p0 with _ | a <;> rcases h1 : pyInt p1 with _ | b <;>
      rcases h2 : pyInt p2 with _ | c <;> rw [hs] at h <;>
      simp [h0, h1, h2, Option.bind] at h
    all_goals exact ⟨p0, p1, p2, rest, a, b, c, rfl, h0, h1, h2⟩

/-- Witness for C5 (amended) at the concrete input `1.2.3` with type
`patch`. -/
theorem increment_version_some_shape_witness :
    (increment_version "1.2.3".data "patch".data).isSome = true
      ∧ ∃ p0 p1 p2 rest a b c, splitOnDot "1.2.3".data = p0 :: p1 :: p2 :: rest
          ∧ pyInt p0 = some a ∧ pyInt p1 = some b ∧ pyInt p2 = some c :=
  ⟨by decide, increment_version_some_shape "1.2.3".data "patch".data (by decide)⟩

/-! ### Helper lemmas: clearing a package directory -/

theorem clear_foldl_filter :
    ∀ (l acc : List (String × FSNode)),
      l.foldl (fun acc e => if e.1 ∈ IGNORE_LIST then acc else removeEntry e.1 acc) acc
        = acc.filter (fun x => decide (x.1 ∈ IGNORE_LIST)
            || l.all (fun e => decide (e.1 ∈ IGNORE_LIST) || x.1 != e.1)) := by
  intro l
  induction l with
  | nil =>
    intro acc
    simp
  | cons e rest ih =>
    intro acc
    rw [List.foldl_cons]
    by_cases he : e.1 ∈ IGNORE_LIST
    · rw [if_pos he, ih]
      apply List.filter_congr
      intro x _
      simp [List.all_cons, he]
    · rw [if_neg he, removeEntry, ih, List.filter_filter]
      apply List.filter_congr
      intro x _
      by_cases hx : x.1 ∈ IGNORE_LIST
      · have hxe : x.1 ≠ e.1 := fun heq => he (heq ▸ hx)
        simp [List.all_cons, he, hx, hxe]
      · simp [List.all_cons, he, hx, Bool.and_comm]

theorem clear_package_dir_eq_filter (d : List (String × FSNode)) :
    clear_package_dir d = d.filter (fun e => decide (e.1 ∈ IGNORE_LIST)) := by
  rw [clear_package_dir, clear_foldl_filter]
  apply List.filter_congr
  intro x hx
  by_cases hmem : x.1 ∈ IGNORE_LIST
  · simp [hmem]
  · have hall : d.all (fun e => decide (e.1 ∈ IGNORE_LIST) || x.1 != e.1) = false :=
      List.all_eq_false.mpr ⟨x, hx, by simp [hmem]⟩
    simp [hmem, hall]

/-! ### Claim C6 -/

/-- C6: clearing a package directory deletes exactly the entries whose names
are not in the allow-list `IGNORE_LIST`; the surviving listing is precisely
the original listing filtered to allow-listed names, each entry kept with its
contents untouched. -/
theorem clear_package_dir_spec (d : List (String × FSNode)) :
    (∀ e, e ∈ clear_package_dir d ↔ e ∈ d ∧ e.1 ∈ IGNORE_LIST)
  ∧ clear_package_dir d = d.filter (fun e => decide (e.1 ∈ IGNORE_LIST)) := by
  refine ⟨?_, clear_package_dir_eq_filter d⟩
  intro e
  rw [clear_package_dir_eq_filter]
  simp [List.mem_filter]

/-! ### Claim C3 -/

/-- C3: `clear_package_dir` is idempotent — clearing an already cleared
directory listing changes nothing. -/
theorem clear_package_dir_idempotent (d : List (String × FSNode)) :
    clear_package_dir (clear_package_dir d) = clear_package_dir d := by
  rw [clear_package_dir_eq_filter d, clear_package_dir_eq_filter]
  exact List.filter_eq_self.mpr (fun a ha => (List.mem_filter.mp ha).2)

/-! ### Claim C7 -/

/-- C7: the package-selection loop of `clearPackages.py` (and `setup.py`):
with an empty argument list every directory entry of `lib` is processed
(cleared); with a nonempty argument list exactly the directories whose names
appear among the arguments are processed and every other directory is left
unmodified. -/
theorem processPackages_spec (args : List String) (lib : List (String × FSNode)) :
    ∀ (i : Nat) (n : String) (c : List (String × FSNode)),
      lib[i]? = some (n, FSNode.dir c) →
      ((args = [] ∨ n ∈ args) →
        (processPackages args lib)[i]? = some (n, FSNode.dir (clear_package_dir c)))
      ∧ (¬(args = [] ∨ n ∈ args) →
        (processPackages args lib)[i]? = some (n, FSNode.dir c)) := by
  induction lib with
  | nil =>
    intro i n c hi
    simp at hi
  | cons e rest ih =>
    intro i n c hi
    cases i with
    | zero =>
      rw [List.getElem?_cons_zero, Option.some_inj] at hi
      subst hi
      rw [processPackages.eq_def]
      simp only [List.getElem?_cons_zero]
      constructor
      · intro hsel
        rw [if_pos hsel]
      · intro hsel
        rw [if_neg hsel]
    | succ j =>
      rw [List.getElem?_cons_succ] at hi
      rw [processPackages.eq_def]
      simp only [List.getElem?_cons_succ]
      exact ih j n c hi

/-- Witness for C7: with arguments `["A"]`, the directory `A` is cleared and
the directory `B` is left unmodified. -/
theorem processPackages_spec_witness :
    (processPackages ["A"] [("A", FSNode.dir [("junk", FSNode.file "x")]),
        ("B", FSNode.dir [("junk", FSNode.file "x")])])[0]?
      = some ("A", FSNode.dir (clear_package_dir [("junk", FSNode.file "x")]))
  ∧ (processPackages ["A"] [("A", FSNode.dir [("junk", FSNode.file "x")]),
        ("B", FSNode.dir [("junk", FSNode.file "x")])])[1]?
      = some ("B", FSNode.dir [("junk", FSNode.file "x")]) :=
  ⟨(processPackages_spec ["A"] _ 0 "A" _ rfl).1 (Or.inr (by decide)),
   (processPackages_spec ["A"] _ 1 "B" _ rfl).2 (by decide)⟩

/-! ### Helper lemmas: `find_project_root` -/

theorem ancestorsCore_getElem? :
    ∀ (fuel : Nat) (l : List String), l.length ≤ fuel → ∀ i : Nat,
      (ancestorsCore fuel l)[i]?
        = if i < l.length then some (l.take (l.length - i)) else none := by
  intro fuel
  induction fuel with
  | zero =>
    intro l hl i
    rcases l with _ | ⟨p, ps⟩
    · simp [ancestorsCore]
    · simp at hl
  | succ f ih =>
    intro l hl i
    rcases l with _ | ⟨p, ps⟩
    · simp [ancestorsCore]
    · rw [ancestorsCore]
      cases i with
      | zero =>
        rw [List.getElem?_cons_zero, if_pos (by simp), Nat.sub_zero, List.take_length]
      | succ j =>
        rw [List.getElem?_cons_succ,
          ih (p :: ps).dropLast (by rw [List.length_dropLast]; simp at hl ⊢; omega) j,
          List.length_dropLast, List.dropLast_eq_take, List.take_take]
        by_cases hj : j < (p :: ps).length - 1
        · rw [if_pos hj,
            if_pos (show j + 1 < (p :: ps).length by
              simp only [List.length_cons] at hj ⊢; omega)]
          have hmin : ((p :: ps).length - 1 - j) ⊓ ((p :: ps).length - 1)
              = (p :: ps).length - (j + 1) := by
            simp only [List.length_cons]
            omega
          rw [hmin]
        · rw [if_neg hj,
            if_neg (show ¬(j + 1 < (p :: ps).length) by
              simp only [List.length_cons] at hj ⊢; omega)]

theorem nil_not_mem_ancestorsCore :
    ∀ (fuel : Nat) (l : List String), [] ∉ ancestorsCore fuel l := by
  intro fuel
  induction fuel with
  | zero =>
    intro l
    rcases l with _ | ⟨p, ps⟩ <;> simp [ancestorsCore]
  | succ f ih =>
    intro l
    rcases l with _ | ⟨p, ps⟩
    · simp [ancestorsCore]
    · rw [ancestorsCore]
      intro hmem
      rcases List.mem_cons.mp hmem with h | h
      · exact List.cons_ne_nil p ps h.symm
      · exact ih _ h

theorem frGo_eq_find (hasLib : List String → Bool) (cwd : List String) :
    ∀ (fuel : Nat) (l : List String), l.length ≤ fuel →
      frGo hasLib cwd fuel l = ((ancestorsCore fuel l).find? hasLib).getD cwd := by
  intro fuel
  induction fuel with
  | zero =>
    intro l hl
    rcases l with _ | ⟨p, ps⟩
    · simp [frGo, ancestorsCore]
    · simp at hl
  | succ f ih =>
    intro l hl
    rcases l with _ | ⟨p, ps⟩
    · simp [frGo, ancestorsCore]
    · rw [frGo, ancestorsCore, List.find?_cons]
      by_cases h : hasLib (p :: ps) = true
      · rw [if_pos h, h]
        rfl
      · have hf : hasLib (p :: ps) = false := Bool.eq_false_iff.mpr h
        rw [if_neg h, hf,
          ih (p :: ps).dropLast (by rw [List.length_dropLast]; simp at hl ⊢; omega)]

/-! ### Helper lemmas: the manifest search and replace -/

theorem dropLit_append : ∀ l s : List Char, dropLit l (l ++ s) = some s := by
  intro l
  induction l with
  | nil => intro s; rfl
  | cons c cs ih =>
    intro s
    rw [List.cons_append, dropLit, if_pos rfl, ih]

theorem takeWhile_quote_split (t : List Char) :
    ∀ g : List Char, (∀ c ∈ g, c ≠ '"') →
      (g ++ '"' :: t).takeWhile (fun c => c != '"') = g
      ∧ (g ++ '"' :: t).dropWhile (fun c => c != '"') = '"' :: t := by
  intro g
  induction g with
  | nil =>
    intro _
    constructor
    · rw [List.nil_append, List.takeWhile_cons]
      simp
    · rw [List.nil_append, List.dropWhile_cons]
      simp
  | cons c cs ih =>
    intro hg
    have hc : (c != '"') = true := by
      simpa using hg c (List.mem_cons_self c cs)
    have hcs := ih (fun y hy => hg y (List.mem_cons_of_mem c hy))
    constructor
    · rw [List.cons_append, List.takeWhile_cons, if_pos hc, hcs.1]
    · rw [List.cons_append, List.dropWhile_cons, if_pos hc, hcs.2]

theorem verLine_unfold (g t : List Char) :
    verLine g ++ t
      = "version".data ++ (' ' :: '=' :: ' ' :: '"' :: (g ++ '"' :: t)) := by
  have h : "version = ".data = "version".data ++ [' ', '=', ' '] := by decide
  rw [verLine, h]
  simp [List.append_assoc]

theorem matchVersionAt_verLine (g t : List Char) (hne : g ≠ [])
    (hq : ∀ c ∈ g, c ≠ '"') : matchVersionAt (verLine g ++ t) = some g := by
  rcases g with _ | ⟨g0, gs⟩
  · exact absurd rfl hne
  have hsp := takeWhile_quote_split t (g0 :: gs) hq
  have hsp1 : List.takeWhile (fun c => c != '"') (g0 :: (gs ++ '"' :: t)) = g0 :: gs := by
    rw [← List.cons_append]
    exact hsp.1
  have hsp2 : List.dropWhile (fun c => c != '"') (g0 :: (gs ++ '"' :: t)) = '"' :: t := by
    rw [← List.cons_append]
    exact hsp.2
  have h1 : List.dropWhile pySpace (' ' :: '=' :: ' ' :: '"' :: (g0 :: (gs ++ '"' :: t)))
      = '=' :: ' ' :: '"' :: (g0 :: (gs ++ '"' :: t)) := by
    rw [List.dropWhile_cons, if_pos (by decide), List.dropWhile_cons, if_neg (by decide)]
  have h2 : List.dropWhile pySpace (' ' :: '"' :: (g0 :: (gs ++ '"' :: t)))
      = '"' :: (g0 :: (gs ++ '"' :: t)) := by
    rw [List.dropWhile_cons, if_pos (by decide), List.dropWhile_cons, if_neg (by decide)]
  rw [matchVersionAt, verLine_unfold, dropLit_append]
  simp [h1, h2, hsp1, hsp2]

theorem matchVersionAt_cons_ne_v (c : Char) (s : List Char) (hc : c ≠ 'v') :
    matchVersionAt (c :: s) = none := by
  have h : dropLit "version".data (c :: s) = none := by
    rw [show "version".data = 'v' :: "ersion".data from rfl, dropLit,
      if_neg (fun h => hc h.symm)]
  rw [matchVersionAt, h]

theorem searchVersionGo_append_no_v (pre : List Char) (hv : 'v' ∉ pre) :
    ∀ (b : Bool) (rest : List Char),
      searchVersionGo b (pre ++ rest)
        = searchVersionGo (pre.foldl (fun _ c => decide (c = '\n')) b) rest := by
  induction pre with
  | nil => intro b rest; rfl
  | cons c cs ih =>
    intro b rest
    have hc : c ≠ 'v' := fun h => hv (h ▸ List.mem_cons_self c cs)
    have hcs : 'v' ∉ cs := fun h => hv (List.mem_cons_of_mem c h)
    rw [List.cons_append, searchVersionGo, List.foldl_cons]
    by_cases hb : b = true
    · rw [if_pos hb, matchVersionAt_cons_ne_v c _ hc, ih hcs]
    · rw [if_neg hb, ih hcs]

theorem foldl_newline_flag :
    ∀ (pre : List Char) (b : Bool), pre.getLast? = some '\n' →
      pre.foldl (fun _ c => decide (c = '\n')) b = true := by
  intro pre
  induction pre with
  | nil =>
    intro b hb
    simp at hb
  | cons c cs ih =>
    intro b hb
    rcases cs with _ | ⟨d, ds⟩
    · simp at hb
      simp [hb]
    · rw [List.getLast?_cons_cons] at hb
      rw [List.foldl_cons]
      exact ih _ hb

theorem searchVersionGo_true_of_match (s : List Char) (g : List Char)
    (h : matchVersionAt s = some g) (hs : s ≠ []) :
    searchVersionGo true s = some g := by
  rcases s with _ | ⟨c, cs⟩
  · exact absurd rfl hs
  rw [searchVersionGo, if_pos rfl, h]

theorem replaceAllCore_skip (needle repl : List Char) :
    ∀ (l rest : List Char),
      replaceAllCore needle repl l.length (l ++ rest)
        = replaceAllCore needle repl 0 rest := by
  intro l
  induction l with
  | nil => intro rest; rfl
  | cons c cs ih =>
    intro rest
    rw [List.cons_append, List.length_cons, replaceAllCore, ih]

theorem replaceAllCore_match (n0 : Char) (ns repl b : List Char) :
    replaceAllCore (n0 :: ns) repl 0 ((n0 :: ns) ++ b)
      = repl ++ replaceAllCore (n0 :: ns) repl 0 b := by
  rw [List.cons_append, replaceAllCore,
    if_pos ⟨List.cons_ne_nil n0 ns,
      List.isPrefixOf_iff_prefix.mpr (by rw [← List.cons_append]; exact List.prefix_append _ b)⟩]
  have hlen : (n0 :: ns).length - 1 = ns.length := by simp
  rw [hlen, replaceAllCore_skip]

theorem replaceAllCore_no_match (needle repl : List Char) (c : Char) (cs : List Char)
    (h : needle.isPrefixOf (c :: cs) = false) :
    replaceAllCore needle repl 0 (c :: cs) = c :: replaceAllCore needle repl 0 cs := by
  rw [replaceAllCore, if_neg (by simp [h])]

theorem replaceAll_append_no_v (needle repl : List Char) (hn : ∃ r, needle = 'v' :: r) :
    ∀ (pre rest : List Char), 'v' ∉ pre →
      replaceAll needle repl (pre ++ rest) = pre ++ replaceAll needle repl rest := by
  intro pre
  induction pre with
  | nil => intro rest _; rfl
  | cons c cs ih =>
    intro rest hv
    have hc : c ≠ 'v' := fun h => hv (h ▸ List.mem_cons_self c cs)
    have hcs : 'v' ∉ cs := fun h => hv (List.mem_cons_of_mem c h)
    obtain ⟨r, hr⟩ := hn
    have hpre : needle.isPrefixOf (c :: (cs ++ rest)) = false := by
      rw [Bool.eq_false_iff]
      intro hp
      rcases List.isPrefixOf_iff_prefix.mp hp with ⟨s, hs⟩
      rw [hr, List.cons_append] at hs
      injection hs with hhead _
      exact hc hhead.symm
    rw [List.cons_append, replaceAll, replaceAllCore_no_match needle repl _ _ hpre, ← replaceAll,
      ih rest hcs, List.cons_append]

/-! ### Claim C10 -/

/-- C10: `find_project_root` examines the starting directory and its proper
ancestors above it (never the filesystem root, which is its own parent), in
upward order, and returns the first examined directory containing a `lib`
subdirectory; when none does, it returns the original working directory
unchanged.  `ancestors cwd` lists the examined directories: its `i`-th
element is the prefix of `cwd` of length `cwd.length - i`, and the root `[]`
is not among them. -/
theorem find_project_root_spec (hasLib : List String → Bool) (cwd : List String) :
    (∀ i : Nat, (ancestors cwd)[i]?
        = if i < cwd.length then some (cwd.take (cwd.length - i)) else none)
  ∧ [] ∉ ancestors cwd
  ∧ find_project_root hasLib cwd = ((ancestors cwd).find? hasLib).getD cwd :=
  ⟨fun i => ancestorsCore_getElem? cwd.length cwd le_rfl i,
   nil_not_mem_ancestorsCore cwd.length cwd,
   frGo_eq_find hasLib cwd cwd.length cwd le_rfl⟩

theorem replaceAll_eq_self_of_not_infix (needle repl : List Char) :
    ∀ s, ¬ needle <:+: s → replaceAll needle repl s = s := by
  intro s
  induction s with
  | nil => intro _; rfl
  | cons c cs ih =>
    intro h
    have hp : needle.isPrefixOf (c :: cs) = false := by
      rw [Bool.eq_false_iff]
      intro hp
      exact h (List.isPrefixOf_iff_prefix.mp hp).isInfix
    rw [replaceAll, replaceAllCore_no_match _ _ _ _ hp, ← replaceAll,
      ih (fun hi => h (List.infix_cons hi))]

theorem replaceAll_first_occurrence (n0 : Char) (ns repl : List Char) :
    ∀ (a b : List Char),
      (∀ p, p < a.length → ¬ (n0 :: ns) <+: (a ++ ((n0 :: ns) ++ b)).drop p) →
      replaceAll (n0 :: ns) repl (a ++ ((n0 :: ns) ++ b))
        = a ++ (repl ++ replaceAll (n0 :: ns) repl b) := by
  intro a
  induction a with
  | nil =>
    intro b _
    rw [List.nil_append, List.nil_append, replaceAll, replaceAllCore_match, ← replaceAll]
  | cons c cs ih =>
    intro b hyp
    have h0 := hyp 0 (by simp)
    rw [List.drop_zero] at h0
    have hp : (n0 :: ns).isPrefixOf (c :: (cs ++ ((n0 :: ns) ++ b))) = false := by
      rw [Bool.eq_false_iff]
      intro hp
      refine h0 ?_
      rw [List.cons_append]
      exact List.isPrefixOf_iff_prefix.mp hp
    have hshift : ∀ p, p < cs.length → ¬ (n0 :: ns) <+: (cs ++ ((n0 :: ns) ++ b)).drop p := by
      intro p hp'
      have h := hyp (p + 1) (by simp only [List.length_cons]; omega)
      rw [List.cons_append, List.drop_succ_cons] at h
      exact h
    rw [List.cons_append, replaceAll, replaceAllCore_no_match _ _ _ _ hp, ← replaceAll,
      ih b hshift, List.cons_append]

/-! ### Claim C9 -/

/-- C9: `update_version` replaces exactly the occurrences of the literal text
`version = "old"` (single spaces, double quotes): when that text does not
occur in the manifest — in particular when the file spells its version line
with different spacing or quoting — the content is returned unchanged; and at
its leftmost occurrence `a ++ (verLine old ++ b)` (no occurrence starting
inside `a`) the output is `a`, unchanged, followed by `version = "new"`,
followed by the same replacement applied to the rest. -/
theorem update_version_replaces_exact (content old x : List Char) :
    (¬ verLine old <:+: content → update_version content old x = content)
  ∧ (∀ a b, content = a ++ (verLine old ++ b) →
      (∀ p, p < a.length → ¬ verLine old <+: content.drop p) →
      update_version content old x = a ++ (verLine x ++ update_version b old x)) := by
  constructor
  · intro h
    rw [update_version, replaceAll_eq_self_of_not_infix _ _ _ h]
  · intro a b hcontent hyp
    subst hcontent
    rw [update_version, update_version]
    have hvl : verLine old = 'v' :: ("ersion = ".data ++ '"' :: (old ++ ['"'])) := rfl
    rw [hvl] at hyp ⊢
    exact replaceAll_first_occurrence _ _ _ a b hyp

/-- Witness for C9: a manifest spelling the version line without spaces is
left unchanged, and a manifest with the exact line after a two-character
prefix is rewritten in place. -/
theorem update_version_replaces_exact_witness :
    update_version "version=\"1.0.0\"".data "1.0.0".data "2.0.0".data = "version=\"1.0.0\"".data
  ∧ update_version ("x\n".data ++ (verLine "1.0.0".data ++ "\ny".data)) "1.0.0".data "2.0.0".data
      = "x\n".data ++ (verLine "2.0.0".data ++ update_version "\ny".data "1.0.0".data "2.0.0".data) :=
  ⟨(update_version_replaces_exact "version=\"1.0.0\"".data "1.0.0".data "2.0.0".data).1
      (by decide),
   (update_version_replaces_exact _ "1.0.0".data "2.0.0".data).2 "x\n".data "\ny".data rfl
      (by decide)⟩

/-! ### Claim C4 -/

/-- C4 counterexample: for the manifest `version = "1.0.0"` and the new
version `2"` (which contains a double quote), the round-trip fails: after
`update_version`, `get_current_version` returns `2`, not `2"`. -/
theorem update_version_round_trip_cex :
    get_current_version "version = \"1.0.0\"".data = some "1.0.0".data
  ∧ get_current_version
        (update_version "version = \"1.0.0\"".data "1.0.0".data "2\"".data)
      ≠ some "2\"".data := by
  decide

/-- C4 (amended): writing a version then re-reading it round-trips for
manifests of the shape `pre ++ version = "old" ++ tail` where `pre` (the text
before the version line) contains no `v` and ends at a line boundary, the
current version `old` is nonempty and quote-free, and the new version `x` is
nonempty and quote-free. -/
theorem update_version_round_trip (pre old x tail : List Char)
    (hv : 'v' ∉ pre) (hnl : pre = [] ∨ pre.getLast? = some '\n')
    (hold_ne : old ≠ []) (hold_q : ∀ c ∈ old, c ≠ '"')
    (hx_ne : x ≠ []) (hx_q : ∀ c ∈ x, c ≠ '"') :
    get_current_version (pre ++ (verLine old ++ tail)) = some old
  ∧ get_current_version (update_version (pre ++ (verLine old ++ tail)) old x)
      = some x := by
  have hflag : pre.foldl (fun _ c => decide (c = '\n')) true = true := by
    rcases hnl with h | h
    · subst h
      rfl
    · exact foldl_newline_flag pre true h
  have hvl : verLine old = 'v' :: ("ersion = ".data ++ '"' :: (old ++ ['"'])) := rfl
  have hvlx : verLine x = 'v' :: ("ersion = ".data ++ '"' :: (x ++ ['"'])) := rfl
  constructor
  · rw [get_current_version, searchVersionGo_append_no_v pre hv true, hflag]
    refine searchVersionGo_true_of_match _ _ (matchVersionAt_verLine old tail hold_ne hold_q) ?_
    rw [hvl, List.cons_append]
    exact List.cons_ne_nil _ _
  · rw [update_version, replaceAll_append_no_v (verLine old) (verLine x) ⟨_, hvl⟩ pre _ hv]
    have hocc : replaceAll (verLine old) (verLine x) (verLine old ++ tail)
        = verLine x ++ replaceAll (verLine old) (verLine x) tail := by
      rw [replaceAll, replaceAll, hvl, replaceAllCore_match]
    rw [hocc, get_current_version, searchVersionGo_append_no_v pre hv true, hflag]
    refine searchVersionGo_true_of_match _ _ (matchVersionAt_verLine x _ hx_ne hx_q) ?_
    rw [hvlx, List.cons_append]
    exact List.cons_ne_nil _ _

/-- Witness for C4 (amended) on a concrete two-line manifest. -/
theorem update_version_round_trip_witness :
    get_current_version
        ("[package]\n".data ++ (verLine "1.0.0".data ++ "\nrealm = \"shared\"".data))
      = some "1.0.0".data
  ∧ get_current_version
        (update_version
          ("[package]\n".data ++ (verLine "1.0.0".data ++ "\nrealm = \"shared\"".data))
          "1.0.0".data "2.0.0".data)
      = some "2.0.0".data :=
  update_version_round_trip "[package]\n".data "1.0.0".data "2.0.0".data
    "\nrealm = \"shared\"".data (by decide) (Or.inr (by decide)) (by decide) (by decide)
    (by decide) (by decide)

/-! ### Claim C2 -/

/-- C2 counterexample: in `publish.py`, when the `wally publish` subprocess
fails, the remaining steps (deleting `default.project.json`, rebuilding the
sourcemap via the setup script) still run and the script exits with 0, not a
non-zero status. -/
theorem publish_subprocess_failure_cex :
    (PubEnv.mk true true true "version = \"1.0.0\"".data "n".data "".data "y".data
        false true).wallyPublishOk = false
  ∧ (publish_main (PubEnv.mk true true true "version = \"1.0.0\"".data "n".data "".data
        "y".data false true)).1 = 0
  ∧ "run_setup" ∈ (publish_main (PubEnv.mk true true true "version = \"1.0.0\"".data
        "n".data "".data "y".data false true)).2.1 := by
  decide

/-- C2 (amended): detected precondition failures — missing source directory,
missing package directory, missing `wally.toml`, missing version field,
invalid increment-type input — make `publish.py` skip its remaining steps and
exit 1, and every run with no detected failure exits 0: whatever the
interactive answers (bump requested or not, publishing confirmed or
declined), and whatever the result of the `wally publish` subprocess.  A
failure of `wally publish` does not abort: the remaining steps run and the
exit status is still 0 regardless of `wallyPublishOk`, and `runTests.py`
exits 0 regardless of any of its subprocess results. -/
theorem exit_codes_amended :
    (∀ env : PubEnv,
      (env.srcDirExists = false → publish_main env = (1, [], env.tomlContent))
      ∧ (env.packageDirExists = false → publish_main env = (1, [], env.tomlContent))
      ∧ (env.wallyTomlExists = false → publish_main env = (1, [], env.tomlContent))
      ∧ (get_current_version env.tomlContent = none →
          publish_main env = (1, [], env.tomlContent))
      ∧ (∀ current, get_current_version env.tomlContent = some current →
          normAnswer env.incAnswer = "y".data →
          increment_version current (normAnswer env.incTypeAnswer) = none →
          publish_main env = (1, [], env.tomlContent))
      ∧ (env.srcDirExists = true → env.packageDirExists = true →
          env.wallyTomlExists = true →
          ∀ current, get_current_version env.tomlContent = some current →
          normAnswer env.incAnswer ≠ "y".data →
          normAnswer env.publishAnswer = "y".data →
          publish_main env = (0, ["clear_package_dir", "write_default_project",
            "wally_publish", "delete_default_project", "run_setup"], env.tomlContent))
      ∧ (env.srcDirExists = true → env.packageDirExists = true →
          env.wallyTomlExists = true →
          ∀ current, get_current_version env.tomlContent = some current →
          (normAnswer env.incAnswer = "y".data →
            increment_version current (normAnswer env.incTypeAnswer) ≠ none) →
          (publish_main env).1 = 0))
  ∧ (∀ env : TestsEnv, (runTests_main env).1 = 0) := by
  constructor
  · intro env
    refine ⟨?_, ?_, ?_, ?_, ?_, ?_, ?_⟩
    · intro h
      simp [publish_main, h]
    · intro h
      rcases hsrc : env.srcDirExists <;> simp [publish_main, hsrc, h]
    · intro h
      rcases hsrc : env.srcDirExists <;> rcases hpkg : env.packageDirExists <;>
        simp [publish_main, hsrc, hpkg, h]
    · intro h
      rcases hsrc : env.srcDirExists <;> rcases hpkg : env.packageDirExists <;>
        rcases htoml : env.wallyTomlExists <;>
        simp [publish_main, hsrc, hpkg, htoml, h]
    · intro current hcur hy hinc
      rcases hsrc : env.srcDirExists <;> rcases hpkg : env.packageDirExists <;>
        rcases htoml : env.wallyTomlExists <;>
        simp [publish_main, hsrc, hpkg, htoml, hcur, hy, hinc]
    · intro h1 h2 h3 current hcur hny hpub
      simp [publish_main, h1, h2, h3, hcur, hny, hpub]
    · intro h1 h2 h3 current hcur hinc
      by_cases hy : normAnswer env.incAnswer = "y".data
      · rcases hiv : increment_version current (normAnswer env.incTypeAnswer) with _ | nv
        · exact absurd hiv (hinc hy)
        · by_cases hpub : normAnswer env.publishAnswer = "y".data <;>
            simp [publish_main, h1, h2, h3, hcur, hy, hiv, hpub]
      · by_cases hpub : normAnswer env.publishAnswer = "y".data <;>
          simp [publish_main, h1, h2, h3, hcur, hy, hpub]
  · intro env
    simp [runTests_main]

/-- Witness for C2 (amended): a run with every precondition satisfied, no
version bump requested, publishing confirmed, and a failing `wally publish`
performs all the remaining steps and returns 0; and a run that bumps the
patch version and then declines publishing also returns 0. -/
theorem exit_codes_amended_witness :
    publish_main (PubEnv.mk true true true "version = \"1.0.0\"".data "n".data "".data
        "y".data false true)
      = (0, ["clear_package_dir", "write_default_project", "wally_publish",
             "delete_default_project", "run_setup"], "version = \"1.0.0\"".data)
  ∧ (publish_main (PubEnv.mk true true true "version = \"1.0.0\"".data "y".data
        "patch".data "n".data true true)).1 = 0 :=
  ⟨(exit_codes_amended.1 (PubEnv.mk true true true "version = \"1.0.0\"".data "n".data
      "".data "y".data false true)).2.2.2.2.2.1
    rfl rfl rfl "1.0.0".data (by decide) (by decide) (by decide),
   (exit_codes_amended.1 (PubEnv.mk true true true "version = \"1.0.0\"".data "y".data
      "patch".data "n".data true true)).2.2.2.2.2.2
    rfl rfl rfl "1.0.0".data (by decide) (by decide)⟩

end Scripts
